import Mathlib

/-!
# PintOS: fixed-point helpers and the open-file / user-pointer layer

A shallow embedding of

* `src/threads/fixed_point.h`: the fixed-point macros used by the MLFQS engine,
* `src/userprog/syscall.c`: the user-pointer validators, `find_file_by_fd`,
  `syscall_open` and `syscall_close`,
* `src/threads/thread.h`: the `file_info` record and the `file_list` / `next_fd`
  fields of `struct thread`.

C `int` is a signed 32-bit integer, `int64_t` a signed 64-bit integer.  Values
are unbounded integers of Lean; every C operation that can leave the range is
followed by an explicit two's-complement reduction (`wrap32`, `wrap64`), which
is what gcc on x86 computes.  `>>` on a signed value is the arithmetic shift.
-/

namespace PintOS

/-! ## C integer model -/

/-- Two's-complement reduction of an integer to a signed 32-bit `int`. -/
def wrap32 (x : Int) : Int := (x + 2 ^ 31) % 2 ^ 32 - 2 ^ 31

/-- Two's-complement reduction of an integer to a signed 64-bit `int64_t`. -/
def wrap64 (x : Int) : Int := (x + 2 ^ 63) % 2 ^ 64 - 2 ^ 63

/-- The value is representable as a signed 32-bit `int`. -/
def isInt32 (x : Int) : Prop := -2 ^ 31 ≤ x ∧ x < 2 ^ 31

instance (x : Int) : Decidable (isInt32 x) := by
  unfold isInt32; infer_instance

/-! ## `threads/fixed_point.h` -/

/-- Source: `#define SHIFT_NUM 16` -/
def SHIFT_NUM : Nat := 16

/-- Source: `#define CONVERT_TO_FIX(A) ((fixed_point)(A << SHIFT_NUM))`:
the shift is an `int` shift, so its result is reduced to 32 bits. -/
def CONVERT_TO_FIX (A : Int) : Int := wrap32 (A * 2 ^ SHIFT_NUM)

/-- Source: `#define CONVERT_TO_FLOAT(FP) (FP >> SHIFT_NUM)`: arithmetic right shift. -/
def CONVERT_TO_FLOAT (FP : Int) : Int := FP >>> SHIFT_NUM

/-- Source: `#define CONVERT_TO_FLOAT_ROUND(FP)
  (FP>=0 ? (FP+(1<<(SHIFT_NUM-1)))>>SHIFT_NUM : ((FP-(1<<(SHIFT_NUM-1)))>>SHIFT_NUM))` -/
def CONVERT_TO_FLOAT_ROUND (FP : Int) : Int :=
  if FP ≥ 0 then wrap32 (FP + wrap32 (1 * 2 ^ (SHIFT_NUM - 1))) >>> SHIFT_NUM
  else wrap32 (FP - wrap32 (1 * 2 ^ (SHIFT_NUM - 1))) >>> SHIFT_NUM

/-- Source: `#define ADD_FP(A,B) (A+B)` -/
def ADD_FP (A B : Int) : Int := wrap32 (A + B)

/-- Source: `#define SUB_FP(A,B) (A-B)` -/
def SUB_FP (A B : Int) : Int := wrap32 (A - B)

/-- Source: `#define ADD_FP_INT(A,B) (A+(B<<SHIFT_NUM))` -/
def ADD_FP_INT (A B : Int) : Int := wrap32 (A + wrap32 (B * 2 ^ SHIFT_NUM))

/-- Source: `#define SUB_FP_INT(A,B) (A-(B<<SHIFT_NUM))` -/
def SUB_FP_INT (A B : Int) : Int := wrap32 (A - wrap32 (B * 2 ^ SHIFT_NUM))

/-- Source: `#define MUL_FP(A,B) ((fixed_point)((((int64_t)A) * B) >> SHIFT_NUM))`:
the product is formed in `int64_t`, shifted arithmetically, then cast to `int`. -/
def MUL_FP (A B : Int) : Int := wrap32 (wrap64 (A * B) >>> SHIFT_NUM)

/-- Source: `#define MUL_FP_INT(A,B) (A*B)` -/
def MUL_FP_INT (A B : Int) : Int := wrap32 (A * B)

/-- Source: `#define DIV_FP(A,B) ((fixed_point)((((int64_t)A) << SHIFT_NUM) / B))`:
the dividend is shifted in `int64_t`, the quotient is the truncating C
quotient, then cast to `int`.  Division by zero and `INT64_MIN / -1` trap:
`none`. -/
def DIV_FP (A B : Int) : Option Int :=
  let n := wrap64 (A * 2 ^ SHIFT_NUM)
  if B = 0 ∨ (n = -2 ^ 63 ∧ B = -1) then none
  else some (wrap32 (Int.tdiv n B))

/-- Source: `#define DIV_FP_INT(A,B) (A/B)`: the truncating C quotient of two `int`s.
Division by zero and `INT_MIN / -1` trap: `none`. -/
def DIV_FP_INT (A B : Int) : Option Int :=
  if B = 0 ∨ (A = -2 ^ 31 ∧ B = -1) then none
  else some (Int.tdiv A B)

/-! ## `userprog/syscall.c`: user-pointer validators -/

/-- User memory as the system-call handler sees it: whether a byte read or a
byte write at an address completes without a page fault, and the byte stored
there. -/
structure user_memory where
  /-- a one-byte read at the address does not fault -/
  readable : Nat → Bool
  /-- a one-byte write at the address does not fault -/
  writable : Nat → Bool
  /-- the byte stored at the address -/
  byte : Nat → Nat

/-- Modelled from the spec: `is_user_vaddr` and `PHYS_BASE` of `threads/vaddr.h`
are not among the sources; a user virtual address is an address below
`PHYS_BASE`, which is taken as a parameter. -/
def is_user_vaddr (PHYS_BASE vaddr : Nat) : Bool := decide (vaddr < PHYS_BASE)

/-- Function `get_user`: the byte at `uaddr`, or `-1` when the access faults. -/
def get_user (mem : user_memory) (uaddr : Nat) : Int :=
  if mem.readable uaddr then ((mem.byte uaddr % 256 : Nat) : Int) else -1

/-- Function `put_user`: stores `byte` at `udst`; `false` when the access faults.
Returns the success flag and the memory afterwards. -/
def put_user (mem : user_memory) (udst byte : Nat) : Bool × user_memory :=
  if mem.writable udst then
    (true, { mem with byte := fun a => if a = udst then byte % 256 else mem.byte a })
  else (false, mem)

/-- What a validator did: the addresses it handed to `get_user` / `put_user`, in
order, and whether it returned to its caller (`true`) or ended in
`terminate_process`, which does not return (`false`). -/
structure check_result where
  accessed : List Nat
  returned : Bool
deriving DecidableEq

/-- The loop `for (i = 0; i < size; i++) if (get_user(ptr + i) == -1)
terminate_process();` with `n` iterations left at index `i`; pointer arithmetic
is 32-bit. -/
def check_read_from (mem : user_memory) (ptr : Nat) : Nat → Nat → check_result
  | 0, _ => ⟨[], true⟩
  | n + 1, i =>
    let a := (ptr + i) % 2 ^ 32
    if get_user mem a = -1 then ⟨[a], false⟩
    else
      let r := check_read_from mem ptr n (i + 1)
      ⟨a :: r.accessed, r.returned⟩

/-- Function `check_user_pointer_read(ptr, size)` -/
def check_user_pointer_read (PHYS_BASE : Nat) (mem : user_memory) (ptr size : Nat) :
    check_result :=
  if !is_user_vaddr PHYS_BASE ptr then ⟨[], false⟩
  else check_read_from mem ptr size 0

/-- The loop `for (i = 0; i < size; i++) if (!put_user(ptr + i, 0))
terminate_process();` with `n` iterations left at index `i`. -/
def check_write_from (mem : user_memory) (ptr : Nat) : Nat → Nat → check_result × user_memory
  | 0, _ => (⟨[], true⟩, mem)
  | n + 1, i =>
    let a := (ptr + i) % 2 ^ 32
    let w := put_user mem a 0
    if !w.1 then (⟨[a], false⟩, w.2)
    else
      let r := check_write_from w.2 ptr n (i + 1)
      (⟨a :: r.1.accessed, r.1.returned⟩, r.2)

/-- Function `check_user_pointer_write(ptr, size)` -/
def check_user_pointer_write (PHYS_BASE : Nat) (mem : user_memory) (ptr size : Nat) :
    check_result × user_memory :=
  if !is_user_vaddr PHYS_BASE ptr then (⟨[], false⟩, mem)
  else check_write_from mem ptr size 0

/-- The loop `while (true)` of `check_user_pointer_string` at `_ptr`, bounded
by a number of iterations; `none` when the bound is reached before the loop
ends. -/
def check_string_from (mem : user_memory) : Nat → Nat → Option check_result
  | 0, _ => none
  | fuel + 1, _ptr =>
    let c := get_user mem _ptr
    if c = -1 then some ⟨[_ptr], false⟩
    else if c = 0 then some ⟨[_ptr], true⟩
    else
      (check_string_from mem fuel ((_ptr + 1) % 2 ^ 32)).map
        fun r => ⟨_ptr :: r.accessed, r.returned⟩

/-- Function `check_user_pointer_string(ptr)` -/
def check_user_pointer_string (PHYS_BASE : Nat) (mem : user_memory) (fuel ptr : Nat) :
    Option check_result :=
  if !is_user_vaddr PHYS_BASE ptr then some ⟨[], false⟩
  else check_string_from mem fuel ptr

/-! ## `threads/thread.h` and `userprog/syscall.c`: the open-file table -/

/-- Record `struct file_info`: a descriptor and the `struct file *` it stands for.  The
intrusive `elem` link is the position of the record in `file_list`. -/
structure file_info where
  fd : Int
  file : Nat
deriving DecidableEq

/-- The fields of `struct thread` that hold the open files. -/
structure thread where
  file_list : List file_info
  next_fd : Int
deriving DecidableEq

/-- The loop of `find_file_by_fd` from `list_begin` to `list_end`: the position
of the first node whose `fd` field equals `fd`. -/
def find_entry (fd : Int) : List file_info → Option Nat
  | [] => none
  | entry :: rest =>
    if entry.fd = fd then some 0 else (find_entry fd rest).map (· + 1)

/-- Function `find_file_by_fd(fd)` on the current thread `cur`: the node found (`none`
for `NULL`) and the thread afterwards.  A pointer to a node of `file_list` is
its position in the list. -/
def find_file_by_fd (cur : thread) (fd : Int) : Option Nat × thread :=
  (find_entry fd cur.file_list, cur)

/-- Function `syscall_open` once the file name has been read and validated;
`file_entry` is what `filesys_open` returned (`none` for `NULL`).  Returns the
thread afterwards and the value stored in `f->eax`.  `malloc` is taken to
succeed. -/
def syscall_open (cur : thread) (file_entry : Option Nat) : thread × Int :=
  match file_entry with
  | none => (cur, -1)
  | some file =>
    let fd := cur.next_fd
    let cur1 : thread := { cur with next_fd := wrap32 (cur.next_fd + 1) }
    ({ cur1 with file_list := cur1.file_list ++ [⟨fd, file⟩] }, fd)

/-- Function `syscall_close` once `fd` has been read from the user stack: the node found
by `find_file_by_fd` is unlinked with `list_remove`. -/
def syscall_close (cur : thread) (fd : Int) : thread :=
  match find_file_by_fd cur fd with
  | (none, cur1) => cur1
  | (some i, cur1) => { cur1 with file_list := cur1.file_list.eraseIdx i }

/-- A call made by the thread on its open-file table. -/
inductive fd_call where
  | sys_open (file_entry : Option Nat)
  | sys_close (fd : Int)
deriving DecidableEq

/-- A thread together with the descriptors that successful `syscall_open` calls
have returned so far, oldest first. -/
structure fd_run where
  cur : thread
  returned : List Int
deriving DecidableEq

/-- One call. -/
def fd_step (s : fd_run) : fd_call → fd_run
  | .sys_open none => ⟨(syscall_open s.cur none).1, s.returned⟩
  | .sys_open (some file) =>
    ⟨(syscall_open s.cur (some file)).1, s.returned ++ [(syscall_open s.cur (some file)).2]⟩
  | .sys_close fd => ⟨syscall_close s.cur fd, s.returned⟩

/-- A sequence of calls, in order. -/
def fd_exec (s : fd_run) (calls : List fd_call) : fd_run := calls.foldl fd_step s

/-- The number of calls of a sequence that are a `syscall_open` for which
`filesys_open` succeeds. -/
def successful_opens : List fd_call → Nat
  | [] => 0
  | .sys_open (some _) :: rest => successful_opens rest + 1
  | _ :: rest => successful_opens rest

/-- A thread with an empty `file_list`, and no descriptor returned yet. -/
def fd_init (next_fd : Int) : fd_run := ⟨⟨[], next_fd⟩, []⟩

/-- The descriptor invariant of a run: the `fd` fields of `file_list` are
pairwise distinct and below `next_fd`, and so are the descriptors returned so
far. -/
def fd_inv (s : fd_run) : Prop :=
  (s.cur.file_list.map file_info.fd).Nodup ∧
  (∀ e ∈ s.cur.file_list, e.fd < s.cur.next_fd) ∧
  (∀ d ∈ s.returned, d < s.cur.next_fd) ∧
  s.returned.Nodup

/-! ## Lemmas on the integer model -/

theorem wrap32_of_isInt32 {x : Int} (h : isInt32 x) : wrap32 x = x := by
  unfold isInt32 at h
  unfold wrap32
  omega

theorem wrap32_isInt32 (x : Int) : isInt32 (wrap32 x) := by
  unfold isInt32 wrap32
  omega

theorem wrap32_congr (x : Int) : ∃ k : Int, wrap32 x = x + k * 2 ^ 32 := by
  refine ⟨-((x + 2 ^ 31) / 2 ^ 32), ?_⟩
  unfold wrap32
  omega

theorem wrap64_of_range {x : Int} (h1 : -2 ^ 63 ≤ x) (h2 : x < 2 ^ 63) : wrap64 x = x := by
  unfold wrap64
  omega

theorem sar_eq_ediv (x : Int) : x >>> SHIFT_NUM = x / 2 ^ 16 := by
  rw [Int.shiftRight_eq_div_pow]
  rfl

/-! ## Fixed-point conversions -/

/-- C1: at the fixed-point value `CONVERT_TO_FIX (-1) = -65536` (the integer
`-1`, exactly) `CONVERT_TO_FLOAT_ROUND` returns `-2`, and at the fixed-point
value `-1` (the real number `-1/65536`, whose nearest integer is `0`) it returns
`-1`: the negative branch subtracts one half and then shifts, and the
arithmetic shift rounds down.  Both results are more than `2^15` fixed-point
units away from the argument, and no addition or subtraction of `2^15`
overflows. -/
theorem round_negative_not_nearest :
    (isInt32 (-65536) ∧ isInt32 (-65536 + 2 ^ 15) ∧ isInt32 (-65536 - 2 ^ 15)) ∧
    CONVERT_TO_FIX (-1) = -65536 ∧
    CONVERT_TO_FLOAT_ROUND (-65536) = -2 ∧
    ¬ (|CONVERT_TO_FLOAT_ROUND (-65536) * 2 ^ 16 - (-65536)| ≤ 2 ^ 15) ∧
    (isInt32 (-1) ∧ isInt32 (-1 + 2 ^ 15) ∧ isInt32 (-1 - 2 ^ 15)) ∧
    CONVERT_TO_FLOAT_ROUND (-1) = -1 ∧
    ¬ (|CONVERT_TO_FLOAT_ROUND (-1) * 2 ^ 16 - (-1)| ≤ 2 ^ 15) := by
  decide

/-- C2: at the fixed-point value `-1` (the real number `-1/65536`)
`CONVERT_TO_FLOAT` returns `-1`, where the quotient by `2^16` truncated toward
zero is `0`, and at `-98304` (the real number `-1.5`) it returns `-2`, where the
truncated quotient is `-1`: the arithmetic shift rounds down.  Hence
`CONVERT_TO_FLOAT (-1) = -1` is not the negation of `CONVERT_TO_FLOAT 1 = 0`,
although `1` is a 32-bit value other than `INT_MIN`. -/
theorem convert_to_float_not_toward_zero :
    (isInt32 (-1) ∧ isInt32 1 ∧ (1 : Int) ≠ -2 ^ 31) ∧
    CONVERT_TO_FLOAT (-1) = -1 ∧
    Int.tdiv (-1) (2 ^ 16) = 0 ∧
    CONVERT_TO_FLOAT 1 = 0 ∧
    CONVERT_TO_FLOAT (-1) ≠ -CONVERT_TO_FLOAT 1 ∧
    isInt32 (-98304) ∧
    CONVERT_TO_FLOAT (-98304) = -2 ∧
    Int.tdiv (-98304) (2 ^ 16) = -1 := by
  decide

/-- C3: for every integer `n` with `-2^15 ≤ n < 2^15`, converting to fixed point
and back with the truncating conversion is the identity. -/
theorem convert_roundtrip (n : Int) (hlo : -2 ^ 15 ≤ n) (hhi : n < 2 ^ 15) :
    CONVERT_TO_FLOAT (CONVERT_TO_FIX n) = n := by
  unfold CONVERT_TO_FLOAT CONVERT_TO_FIX
  rw [sar_eq_ediv]
  unfold wrap32 SHIFT_NUM
  omega

theorem convert_roundtrip_witness :
    (-2 ^ 15 ≤ (-20 : Int) ∧ (-20 : Int) < 2 ^ 15) ∧
    CONVERT_TO_FLOAT (CONVERT_TO_FIX (-20)) = -20 :=
  ⟨by decide, convert_roundtrip (-20) (by decide) (by decide)⟩

/-! ## Fixed-point multiplication and division -/

theorem tdiv_scale_nonneg {a b c : Int} (ha : 0 ≤ a) (hb : 0 ≤ b) (hc : 0 < c) :
    Int.tdiv (a * c) (b * c) = Int.tdiv a b := by
  rw [Int.tdiv_eq_ediv (Int.mul_nonneg ha hc.le) (Int.mul_nonneg hb hc.le),
    Int.tdiv_eq_ediv ha hb]
  exact Int.mul_ediv_mul_of_pos_left _ _ hc

theorem tdiv_scale (a b : Int) {c : Int} (hc : 0 < c) :
    Int.tdiv (a * c) (b * c) = Int.tdiv a b := by
  rcases le_total 0 a with ha | ha <;> rcases le_total 0 b with hb | hb
  · exact tdiv_scale_nonneg ha hb hc
  · have h := tdiv_scale_nonneg ha (neg_nonneg.mpr hb) hc
    rw [neg_mul, Int.tdiv_neg, Int.tdiv_neg] at h
    exact neg_injective h
  · have h := tdiv_scale_nonneg (neg_nonneg.mpr ha) hb hc
    rw [neg_mul, Int.neg_tdiv, Int.neg_tdiv] at h
    exact neg_injective h
  · have h := tdiv_scale_nonneg (neg_nonneg.mpr ha) (neg_nonneg.mpr hb) hc
    rw [neg_mul, neg_mul, Int.neg_tdiv_neg, Int.neg_tdiv_neg] at h
    exact h

theorem int32_mul_bounds {A B : Int} (hA : isInt32 A) (hB : isInt32 B) :
    -2 ^ 62 ≤ A * B ∧ A * B ≤ 2 ^ 62 := by
  unfold isInt32 at hA hB
  have h1 : |A| ≤ 2 ^ 31 := abs_le.mpr ⟨by omega, by omega⟩
  have h2 : |B| ≤ 2 ^ 31 := abs_le.mpr ⟨by omega, by omega⟩
  have h3 : |A * B| ≤ 2 ^ 31 * 2 ^ 31 := by
    rw [abs_mul]
    exact mul_le_mul h1 h2 (abs_nonneg _) (by norm_num)
  have h4 := abs_le.mp h3
  constructor
  · have := h4.1; norm_num at this ⊢; exact this
  · have := h4.2; norm_num at this ⊢; exact this

theorem convert_to_fix_of_fits {B : Int} (h : isInt32 (B * 2 ^ 16)) :
    CONVERT_TO_FIX B = B * 2 ^ 16 := by
  unfold CONVERT_TO_FIX SHIFT_NUM
  exact wrap32_of_isInt32 h

theorem mul_fp_fix {A k : Int} (hk : isInt32 (k * 2 ^ 16)) (hAk : isInt32 (A * k)) :
    MUL_FP A (CONVERT_TO_FIX k) = A * k := by
  rw [convert_to_fix_of_fits hk]
  unfold MUL_FP
  have e : A * (k * 2 ^ 16) = (A * k) * 2 ^ 16 := by ring
  rw [e]
  generalize A * k = P at hAk ⊢
  unfold isInt32 at hAk
  rw [wrap64_of_range (by omega) (by omega), sar_eq_ediv]
  unfold wrap32
  omega

/-- C4: for 32-bit `A` and `B` the 64-bit product in `MUL_FP` does not overflow,
and `MUL_FP A B` is the 32-bit value congruent modulo `2^32` to
`floor (A * B / 2^16)`; it is exactly that floor whenever the floor fits in a
signed 32-bit int, and multiplying by fixed-point one is the identity. -/
theorem mul_fp_exact (A B : Int) (hA : isInt32 A) (hB : isInt32 B) :
    wrap64 (A * B) = A * B ∧
    isInt32 (MUL_FP A B) ∧
    (∃ k : Int, MUL_FP A B = Int.fdiv (A * B) (2 ^ 16) + k * 2 ^ 32) ∧
    (isInt32 (Int.fdiv (A * B) (2 ^ 16)) → MUL_FP A B = Int.fdiv (A * B) (2 ^ 16)) ∧
    MUL_FP A (CONVERT_TO_FIX 1) = A := by
  have hb := int32_mul_bounds hA hB
  have hw : wrap64 (A * B) = A * B := wrap64_of_range (by omega) (by omega)
  have hm : MUL_FP A B = wrap32 (Int.fdiv (A * B) (2 ^ 16)) := by
    unfold MUL_FP
    rw [hw, sar_eq_ediv, Int.fdiv_eq_ediv _ (by norm_num)]
  refine ⟨hw, ?_, ?_, ?_, ?_⟩
  · rw [hm]; exact wrap32_isInt32 _
  · rw [hm]; exact wrap32_congr _
  · intro h; rw [hm]; exact wrap32_of_isInt32 h
  · have h := mul_fp_fix (A := A) (k := 1) (by decide) (by simpa using hA)
    simpa using h

theorem mul_fp_exact_witness :
    (isInt32 (-98304) ∧ isInt32 163840) ∧
    (wrap64 (-98304 * 163840) = -98304 * 163840 ∧
      isInt32 (MUL_FP (-98304) 163840) ∧
      (∃ k : Int, MUL_FP (-98304) 163840
        = Int.fdiv (-98304 * 163840) (2 ^ 16) + k * 2 ^ 32) ∧
      (isInt32 (Int.fdiv (-98304 * 163840) (2 ^ 16)) →
        MUL_FP (-98304) 163840 = Int.fdiv (-98304 * 163840) (2 ^ 16)) ∧
      MUL_FP (-98304) (CONVERT_TO_FIX 1) = -98304) :=
  ⟨by decide, mul_fp_exact (-98304) 163840 (by decide) (by decide)⟩

theorem div_fp_eq {A B : Int} (hA : isInt32 A) (hB0 : B ≠ 0) :
    DIV_FP A B = some (wrap32 (Int.tdiv (A * 2 ^ 16) B)) := by
  unfold isInt32 at hA
  unfold DIV_FP SHIFT_NUM
  have hw : wrap64 (A * 2 ^ 16) = A * 2 ^ 16 := wrap64_of_range (by omega) (by omega)
  simp only [hw]
  rw [if_neg]
  rintro (h | ⟨h, -⟩)
  · exact hB0 h
  · omega

/-- C5: for 32-bit `A` and non-zero 32-bit `B` the 64-bit shift in `DIV_FP`
does not overflow, the division does not trap, and the result is the 32-bit
value congruent modulo `2^32` to the C quotient (truncated toward zero) of
`A * 2^16` by `B`; dividing by fixed-point one is the identity, and dividing
`MUL_FP A (CONVERT_TO_FIX k)` by `CONVERT_TO_FIX k` gives back `A` for every
non-zero `k` for which `A * k` and `k * 2^16` fit in a signed 32-bit int. -/
theorem div_fp_exact (A B : Int) (hA : isInt32 A) (_hB : isInt32 B) (hB0 : B ≠ 0) :
    wrap64 (A * 2 ^ 16) = A * 2 ^ 16 ∧
    (∃ q : Int, DIV_FP A B = some q ∧ isInt32 q ∧
      ∃ k : Int, q = Int.tdiv (A * 2 ^ 16) B + k * 2 ^ 32) ∧
    (isInt32 (Int.tdiv (A * 2 ^ 16) B) → DIV_FP A B = some (Int.tdiv (A * 2 ^ 16) B)) ∧
    DIV_FP A (CONVERT_TO_FIX 1) = some A ∧
    (∀ k : Int, k ≠ 0 → isInt32 (A * k) → isInt32 (k * 2 ^ 16) →
      DIV_FP (MUL_FP A (CONVERT_TO_FIX k)) (CONVERT_TO_FIX k) = some A) := by
  have hA' := hA
  unfold isInt32 at hA'
  refine ⟨wrap64_of_range (by omega) (by omega), ?_, ?_, ?_, ?_⟩
  · exact ⟨_, div_fp_eq hA hB0, wrap32_isInt32 _, wrap32_congr _⟩
  · intro h
    rw [div_fp_eq hA hB0, wrap32_of_isInt32 h]
  · rw [convert_to_fix_of_fits (by decide), div_fp_eq hA (by norm_num), one_mul,
      Int.mul_tdiv_cancel _ (by norm_num), wrap32_of_isInt32 hA]
  · intro k hk hAk hk16
    rw [mul_fp_fix hk16 hAk, convert_to_fix_of_fits hk16]
    have hne : k * 2 ^ 16 ≠ 0 := mul_ne_zero hk (by norm_num)
    rw [div_fp_eq hAk hne]
    have e : A * k * 2 ^ 16 = A * (k * 2 ^ 16) := by ring
    rw [e, Int.mul_tdiv_cancel _ hne, wrap32_of_isInt32 hA]

theorem div_fp_exact_witness :
    (isInt32 (-458752) ∧ isInt32 196608 ∧ (196608 : Int) ≠ 0) ∧
    (wrap64 (-458752 * 2 ^ 16) = -458752 * 2 ^ 16 ∧
      (∃ q : Int, DIV_FP (-458752) 196608 = some q ∧ isInt32 q ∧
        ∃ k : Int, q = Int.tdiv (-458752 * 2 ^ 16) 196608 + k * 2 ^ 32) ∧
      (isInt32 (Int.tdiv (-458752 * 2 ^ 16) 196608) →
        DIV_FP (-458752) 196608 = some (Int.tdiv (-458752 * 2 ^ 16) 196608)) ∧
      DIV_FP (-458752) (CONVERT_TO_FIX 1) = some (-458752) ∧
      (∀ k : Int, k ≠ 0 → isInt32 (-458752 * k) → isInt32 (k * 2 ^ 16) →
        DIV_FP (MUL_FP (-458752) (CONVERT_TO_FIX k)) (CONVERT_TO_FIX k)
          = some (-458752))) :=
  ⟨by decide, div_fp_exact (-458752) 196608 (by decide) (by decide) (by decide)⟩

/-- C6: for 32-bit `A` and `B` with `B * 2^16` fitting in a signed 32-bit int,
each mixed fixed-point/integer macro agrees with the fixed-point macro applied
to `CONVERT_TO_FIX B` whenever the result fits (and `B ≠ 0` for division), and
then has the exact value `A + B * 2^16`, `A - B * 2^16`, `A * B`, and the C
quotient of `A` by `B`; `DIV_FP_INT (CONVERT_TO_FIX 60) 4 = CONVERT_TO_FIX 15`. -/
theorem mixed_ops_agree (A B : Int) (hA : isInt32 A) (hB : isInt32 B)
    (hfix : isInt32 (B * 2 ^ 16)) :
    (isInt32 (A + B * 2 ^ 16) →
      ADD_FP_INT A B = ADD_FP A (CONVERT_TO_FIX B) ∧ ADD_FP_INT A B = A + B * 2 ^ 16) ∧
    (isInt32 (A - B * 2 ^ 16) →
      SUB_FP_INT A B = SUB_FP A (CONVERT_TO_FIX B) ∧ SUB_FP_INT A B = A - B * 2 ^ 16) ∧
    (isInt32 (A * B) →
      MUL_FP_INT A B = MUL_FP A (CONVERT_TO_FIX B) ∧ MUL_FP_INT A B = A * B) ∧
    (B ≠ 0 → isInt32 (Int.tdiv A B) →
      DIV_FP_INT A B = DIV_FP A (CONVERT_TO_FIX B) ∧
      DIV_FP_INT A B = some (Int.tdiv A B)) ∧
    DIV_FP_INT (CONVERT_TO_FIX 60) 4 = some (CONVERT_TO_FIX 15) := by
  have hc := convert_to_fix_of_fits hfix
  refine ⟨?_, ?_, ?_, ?_, by decide⟩
  · intro h
    unfold ADD_FP_INT ADD_FP
    rw [hc]
    unfold SHIFT_NUM
    rw [wrap32_of_isInt32 hfix, wrap32_of_isInt32 h]
    exact ⟨rfl, rfl⟩
  · intro h
    unfold SUB_FP_INT SUB_FP
    rw [hc]
    unfold SHIFT_NUM
    rw [wrap32_of_isInt32 hfix, wrap32_of_isInt32 h]
    exact ⟨rfl, rfl⟩
  · intro h
    rw [mul_fp_fix hfix h]
    unfold MUL_FP_INT
    rw [wrap32_of_isInt32 h]
    exact ⟨rfl, rfl⟩
  · intro hB0 h
    have hd : DIV_FP_INT A B = some (Int.tdiv A B) := by
      unfold DIV_FP_INT
      rw [if_neg]
      rintro (h0 | ⟨h1, h2⟩)
      · exact hB0 h0
      · subst h1 h2
        revert h
        decide
    refine ⟨?_, hd⟩
    rw [hd, hc, div_fp_eq hA (mul_ne_zero hB0 (by norm_num)),
      tdiv_scale A B (by norm_num), wrap32_of_isInt32 h]

theorem mixed_ops_agree_witness :
    (isInt32 3932160 ∧ isInt32 4 ∧ isInt32 (4 * 2 ^ 16)) ∧
    ((isInt32 (3932160 + 4 * 2 ^ 16) →
        ADD_FP_INT 3932160 4 = ADD_FP 3932160 (CONVERT_TO_FIX 4) ∧
        ADD_FP_INT 3932160 4 = 3932160 + 4 * 2 ^ 16) ∧
      (isInt32 (3932160 - 4 * 2 ^ 16) →
        SUB_FP_INT 3932160 4 = SUB_FP 3932160 (CONVERT_TO_FIX 4) ∧
        SUB_FP_INT 3932160 4 = 3932160 - 4 * 2 ^ 16) ∧
      (isInt32 (3932160 * 4) →
        MUL_FP_INT 3932160 4 = MUL_FP 3932160 (CONVERT_TO_FIX 4) ∧
        MUL_FP_INT 3932160 4 = 3932160 * 4) ∧
      ((4 : Int) ≠ 0 → isInt32 (Int.tdiv 3932160 4) →
        DIV_FP_INT 3932160 4 = DIV_FP 3932160 (CONVERT_TO_FIX 4) ∧
        DIV_FP_INT 3932160 4 = some (Int.tdiv 3932160 4)) ∧
      DIV_FP_INT (CONVERT_TO_FIX 60) 4 = some (CONVERT_TO_FIX 15)) :=
  ⟨by decide, mixed_ops_agree 3932160 4 (by decide) (by decide) (by decide)⟩

/-! ## User-pointer validators -/

/-- C7: with `PHYS_BASE = 0xc0000000` and memory in which every byte is
accessible and non-zero, `check_user_pointer_read (PHYS_BASE - 1, 2)`,
`check_user_pointer_write (PHYS_BASE - 1, 2)` and
`check_user_pointer_string (PHYS_BASE - 1)` each hand the address `PHYS_BASE`,
which is not a user virtual address, to `get_user` / `put_user`; the first two
return to their caller although the second byte of the range is not below
`PHYS_BASE`. -/
theorem validators_access_phys_base :
    is_user_vaddr 0xc0000000 0xc0000000 = false ∧
    check_user_pointer_read 0xc0000000 ⟨fun _ => true, fun _ => true, fun _ => 1⟩ 0xbfffffff 2
      = ⟨[0xbfffffff, 0xc0000000], true⟩ ∧
    (check_user_pointer_write 0xc0000000 ⟨fun _ => true, fun _ => true, fun _ => 1⟩
        0xbfffffff 2).1
      = ⟨[0xbfffffff, 0xc0000000], true⟩ ∧
    check_user_pointer_string 0xc0000000
        ⟨fun _ => true, fun _ => true, fun a => if a = 0xc0000000 then 0 else 1⟩ 2 0xbfffffff
      = some ⟨[0xbfffffff, 0xc0000000], true⟩ := by
  decide

/-! ## The open-file table -/

theorem find_entry_eq_none (fd : Int) (l : List file_info) :
    find_entry fd l = none ↔ ∀ e ∈ l, e.fd ≠ fd := by
  induction l with
  | nil => simp [find_entry]
  | cons entry rest ih =>
    unfold find_entry
    by_cases h : entry.fd = fd
    · simp [h]
    · simp [h, ih]

theorem find_entry_eq_some (fd : Int) (l : List file_info) (i : Nat) :
    find_entry fd l = some i ↔
      ∃ e, l[i]? = some e ∧ e.fd = fd ∧
        ∀ j, j < i → ∀ e', l[j]? = some e' → e'.fd ≠ fd := by
  induction l generalizing i with
  | nil => simp [find_entry]
  | cons entry rest ih =>
    unfold find_entry
    by_cases h : entry.fd = fd
    · rw [if_pos h]
      constructor
      · intro hi
        have hi0 : i = 0 := by simpa using hi.symm
        subst hi0
        exact ⟨entry, by simp, h, by intro j hj; omega⟩
      · rintro ⟨e, -, -, hall⟩
        rcases Nat.eq_zero_or_pos i with h0 | hpos
        · rw [h0]
        · exact absurd h (hall 0 hpos entry (by simp))
    · rw [if_neg h]
      cases i with
      | zero =>
        constructor
        · intro hi
          simp at hi
        · rintro ⟨e, he, hfd, -⟩
          simp at he
          subst he
          exact absurd hfd h
      | succ k =>
        have hk : Option.map (· + 1) (find_entry fd rest) = some (k + 1) ↔
            find_entry fd rest = some k := by
          cases find_entry fd rest <;> simp
        rw [hk, ih k]
        constructor
        · rintro ⟨e, he, hfd, hall⟩
          refine ⟨e, by simpa using he, hfd, ?_⟩
          intro j hj e' he'
          cases j with
          | zero =>
            simp at he'
            subst he'
            exact h
          | succ j' => exact hall j' (by omega) e' (by simpa using he')
        · rintro ⟨e, he, hfd, hall⟩
          refine ⟨e, by simpa using he, hfd, ?_⟩
          intro j hj e' he'
          exact hall (j + 1) (by omega) e' (by simpa using he')

/-- C8: `find_file_by_fd` returns `NULL` exactly when no entry of the current
thread's `file_list` has the descriptor; it returns the node at position `i`
exactly when that node's `fd` field equals `fd` and no node before it has that
`fd`; the thread, and with it the list, is left as it was. -/
theorem find_file_by_fd_first (cur : thread) (fd : Int) :
    ((find_file_by_fd cur fd).1 = none ↔ ∀ e ∈ cur.file_list, e.fd ≠ fd) ∧
    (∀ i : Nat, (find_file_by_fd cur fd).1 = some i ↔
      ∃ e, cur.file_list[i]? = some e ∧ e.fd = fd ∧
        ∀ j, j < i → ∀ e', cur.file_list[j]? = some e' → e'.fd ≠ fd) ∧
    (find_file_by_fd cur fd).2 = cur :=
  ⟨find_entry_eq_none fd cur.file_list, find_entry_eq_some fd cur.file_list, rfl⟩

theorem find_entry_split {fd : Int} {l : List file_info} {i : Nat}
    (h : find_entry fd l = some i) :
    ∃ pre e post, l = pre ++ e :: post ∧ e.fd = fd ∧ (∀ x ∈ pre, x.fd ≠ fd) ∧
      l.eraseIdx i = pre ++ post := by
  induction l generalizing i with
  | nil => simp [find_entry] at h
  | cons entry rest ih =>
    unfold find_entry at h
    by_cases hfd : entry.fd = fd
    · rw [if_pos hfd] at h
      have hi : i = 0 := by simpa using h.symm
      subst hi
      exact ⟨[], entry, rest, rfl, hfd, by simp, rfl⟩
    · rw [if_neg hfd] at h
      cases hr : find_entry fd rest with
      | none => rw [hr] at h; simp at h
      | some k =>
        rw [hr] at h
        have hi : i = k + 1 := by simpa using h.symm
        subst hi
        obtain ⟨pre, e, post, hl, he, hpre, her⟩ := ih hr
        refine ⟨entry :: pre, e, post, by rw [hl]; rfl, he, ?_, ?_⟩
        · intro x hx
          rcases List.mem_cons.mp hx with hx | hx
          · rw [hx]; exact hfd
          · exact hpre x hx
        · simp [List.eraseIdx, her]

theorem syscall_close_file_list (cur : thread) (fd : Int) :
    (syscall_close cur fd).next_fd = cur.next_fd ∧
    ((find_entry fd cur.file_list = none ∧ (syscall_close cur fd).file_list = cur.file_list) ∨
     ∃ pre e post, cur.file_list = pre ++ e :: post ∧ e.fd = fd ∧
       (∀ x ∈ pre, x.fd ≠ fd) ∧ (syscall_close cur fd).file_list = pre ++ post) := by
  unfold syscall_close find_file_by_fd
  cases hr : find_entry fd cur.file_list with
  | none => exact ⟨rfl, Or.inl ⟨rfl, rfl⟩⟩
  | some i =>
    obtain ⟨pre, e, post, hl, he, hpre, her⟩ := find_entry_split hr
    exact ⟨rfl, Or.inr ⟨pre, e, post, hl, he, hpre, her⟩⟩

theorem syscall_close_sublist (cur : thread) (fd : Int) :
    List.Sublist (syscall_close cur fd).file_list cur.file_list := by
  rcases (syscall_close_file_list cur fd).2 with ⟨-, h⟩ | ⟨pre, e, post, hl, -, -, h⟩
  · rw [h]
  · rw [h, hl]
    exact List.Sublist.append (List.Sublist.refl pre) (List.sublist_cons_self e post)

theorem fd_inv_close {s : fd_run} (h : fd_inv s) (fd : Int) :
    fd_inv ⟨syscall_close s.cur fd, s.returned⟩ := by
  obtain ⟨h1, h2, h3, h4⟩ := h
  have hs := syscall_close_sublist s.cur fd
  have hn := (syscall_close_file_list s.cur fd).1
  refine ⟨?_, ?_, ?_, h4⟩
  · exact List.Nodup.sublist (List.Sublist.map file_info.fd hs) h1
  · intro e he
    show e.fd < (syscall_close s.cur fd).next_fd
    rw [hn]
    exact h2 e (hs.subset he)
  · intro d hd
    show d < (syscall_close s.cur fd).next_fd
    rw [hn]
    exact h3 d hd

theorem fd_inv_open {s : fd_run} (h : fd_inv s) (file : Nat)
    (hr : isInt32 s.cur.next_fd) (hov : s.cur.next_fd + 1 < 2 ^ 31) :
    fd_inv ⟨(syscall_open s.cur (some file)).1,
      s.returned ++ [(syscall_open s.cur (some file)).2]⟩ ∧
    (syscall_open s.cur (some file)).1.next_fd = s.cur.next_fd + 1 := by
  obtain ⟨h1, h2, h3, h4⟩ := h
  have hw : wrap32 (s.cur.next_fd + 1) = s.cur.next_fd + 1 := by
    unfold isInt32 at hr
    exact wrap32_of_isInt32 ⟨by omega, hov⟩
  unfold fd_inv syscall_open
  simp only [hw]
  refine ⟨⟨?_, ?_, ?_, ?_⟩, trivial⟩
  · rw [List.map_append, List.nodup_append]
    refine ⟨h1, by simp, ?_⟩
    intro a ha hb
    simp only [List.map_cons, List.map_nil, List.mem_singleton] at hb
    obtain ⟨e, he, hea⟩ := List.mem_map.mp ha
    have := h2 e he
    omega
  · intro e he
    rcases List.mem_append.mp he with he | he
    · have := h2 e he
      omega
    · simp only [List.mem_singleton] at he
      rw [he]
      show s.cur.next_fd < s.cur.next_fd + 1
      omega
  · intro d hd
    rcases List.mem_append.mp hd with hd | hd
    · have := h3 d hd
      omega
    · simp only [List.mem_singleton] at hd
      omega
  · rw [List.nodup_append]
    refine ⟨h4, by simp, ?_⟩
    intro a ha hb
    simp only [List.mem_singleton] at hb
    have := h3 a ha
    omega

theorem fd_exec_inv (calls : List fd_call) :
    ∀ s : fd_run, fd_inv s → isInt32 s.cur.next_fd →
      s.cur.next_fd + successful_opens calls < 2 ^ 31 →
      fd_inv (fd_exec s calls) ∧
      (fd_exec s calls).cur.next_fd = s.cur.next_fd + successful_opens calls := by
  induction calls with
  | nil =>
    intro s h _ _
    exact ⟨h, by simp [fd_exec, successful_opens]⟩
  | cons c rest ih =>
    intro s h hr hov
    have hstep : fd_exec s (c :: rest) = fd_exec (fd_step s c) rest := rfl
    rw [hstep]
    have hr' := hr
    unfold isInt32 at hr'
    cases c with
    | sys_open file_entry =>
      cases file_entry with
      | none =>
        have hso : successful_opens (fd_call.sys_open none :: rest) = successful_opens rest := rfl
        rw [hso] at hov ⊢
        exact ih _ h hr hov
      | some file =>
        have hso : successful_opens (fd_call.sys_open (some file) :: rest)
            = successful_opens rest + 1 := rfl
        rw [hso] at hov ⊢
        push_cast at hov ⊢
        obtain ⟨hi, hn⟩ := fd_inv_open h file hr (by omega)
        have hstep2 : (fd_step s (fd_call.sys_open (some file))).cur.next_fd
            = s.cur.next_fd + 1 := hn
        obtain ⟨a, b⟩ := ih (fd_step s (fd_call.sys_open (some file))) hi
          (by rw [hstep2]; unfold isInt32; omega) (by rw [hstep2]; omega)
        exact ⟨a, by rw [b, hstep2]; ring⟩
    | sys_close fd =>
      have hso : successful_opens (fd_call.sys_close fd :: rest) = successful_opens rest := rfl
      rw [hso] at hov ⊢
      have hn : (fd_step s (fd_call.sys_close fd)).cur.next_fd = s.cur.next_fd :=
        (syscall_close_file_list s.cur fd).1
      obtain ⟨a, b⟩ := ih (fd_step s (fd_call.sys_close fd)) (fd_inv_close h fd)
        (by rw [hn]; exact hr) (by rw [hn]; exact hov)
      exact ⟨a, by rw [b, hn]⟩

theorem close_then_find {l : List file_info} (hnd : (l.map file_info.fd).Nodup)
    (next_fd : Int) (e : file_info) (he : e ∈ l) :
    (find_file_by_fd (syscall_close ⟨l, next_fd⟩ e.fd) e.fd).1 = none ∧
    ∀ e' ∈ l, e'.fd ≠ e.fd →
      ∃ j, (find_file_by_fd (syscall_close ⟨l, next_fd⟩ e.fd) e'.fd).1 = some j ∧
        (syscall_close ⟨l, next_fd⟩ e.fd).file_list[j]? = some e' := by
  have hsub := syscall_close_sublist ⟨l, next_fd⟩ e.fd
  have hnd' : ((syscall_close ⟨l, next_fd⟩ e.fd).file_list.map file_info.fd).Nodup :=
    List.Nodup.sublist (List.Sublist.map file_info.fd hsub) hnd
  rcases (syscall_close_file_list ⟨l, next_fd⟩ e.fd).2 with
    ⟨hnone, -⟩ | ⟨pre, x, post, hl, hx, hpre, hcl⟩
  · exact absurd rfl ((find_entry_eq_none e.fd l).mp hnone e he)
  · have hl' : l = pre ++ x :: post := hl
    constructor
    · show find_entry e.fd (syscall_close ⟨l, next_fd⟩ e.fd).file_list = none
      rw [hcl, find_entry_eq_none]
      intro y hy
      rcases List.mem_append.mp hy with hy | hy
      · exact hpre y hy
      · intro hye
        rw [hl', List.map_append, List.map_cons, List.nodup_append] at hnd
        have hxp := (List.nodup_cons.mp hnd.2.1).1
        apply hxp
        rw [hx, ← hye]
        exact List.mem_map_of_mem _ hy
    · intro e' he' hne
      have hmem : e' ∈ (syscall_close ⟨l, next_fd⟩ e.fd).file_list := by
        rw [hcl]
        rw [hl'] at he'
        rcases List.mem_append.mp he' with h | h
        · exact List.mem_append_left _ h
        · rcases List.mem_cons.mp h with h | h
          · exact absurd (by rw [h, hx]) hne
          · exact List.mem_append_right _ h
      cases hf : find_entry e'.fd (syscall_close ⟨l, next_fd⟩ e.fd).file_list with
      | none => exact absurd rfl ((find_entry_eq_none _ _).mp hf e' hmem)
      | some j =>
        refine ⟨j, hf, ?_⟩
        obtain ⟨y, hy, hyfd, -⟩ := (find_entry_eq_some _ _ _).mp hf
        rw [hy]
        have hymem : y ∈ (syscall_close ⟨l, next_fd⟩ e.fd).file_list :=
          List.getElem?_mem hy
        exact congrArg some (List.inj_on_of_nodup_map hnd' hymem hmem hyfd)

/-- C9: in every state reached from a thread with an empty `file_list` (and
any 32-bit `next_fd`) by a sequence of `syscall_open` and `syscall_close` calls
during which `next_fd` does not overflow, the `fd` fields of `file_list` are
pairwise distinct and each is below `next_fd`; a successful `syscall_open` in
that state returns a descriptor that is neither open nor was returned before;
and after `syscall_close` on an open descriptor `find_file_by_fd` returns
`NULL` for it while every other open descriptor is still found, as the entry
it was. -/
theorem fd_unique (n0 : Int) (calls : List fd_call) (h0 : isInt32 n0)
    (hov : n0 + successful_opens calls < 2 ^ 31) :
    (((fd_exec (fd_init n0) calls).cur.file_list.map file_info.fd).Nodup ∧
      ∀ e ∈ (fd_exec (fd_init n0) calls).cur.file_list,
        e.fd < (fd_exec (fd_init n0) calls).cur.next_fd) ∧
    (∀ file : Nat,
      (syscall_open (fd_exec (fd_init n0) calls).cur (some file)).2 ∉
        (fd_exec (fd_init n0) calls).cur.file_list.map file_info.fd ∧
      (syscall_open (fd_exec (fd_init n0) calls).cur (some file)).2 ∉
        (fd_exec (fd_init n0) calls).returned) ∧
    (∀ e ∈ (fd_exec (fd_init n0) calls).cur.file_list,
      (find_file_by_fd (syscall_close (fd_exec (fd_init n0) calls).cur e.fd) e.fd).1 = none ∧
      ∀ e' ∈ (fd_exec (fd_init n0) calls).cur.file_list, e'.fd ≠ e.fd →
        ∃ j,
          (find_file_by_fd (syscall_close (fd_exec (fd_init n0) calls).cur e.fd) e'.fd).1
            = some j ∧
          (syscall_close (fd_exec (fd_init n0) calls).cur e.fd).file_list[j]? = some e') := by
  have hinit : fd_inv (fd_init n0) := by
    unfold fd_inv fd_init
    simp
  obtain ⟨⟨h1, h2, h3, h4⟩, -⟩ := fd_exec_inv calls (fd_init n0) hinit h0 hov
  refine ⟨⟨h1, h2⟩, ?_, ?_⟩
  · intro file
    constructor
    · intro hmem
      obtain ⟨e, he, hfd⟩ := List.mem_map.mp hmem
      have := h2 e he
      have hfd' : e.fd = (fd_exec (fd_init n0) calls).cur.next_fd := hfd
      omega
    · intro hmem
      have := h3 _ hmem
      have hfd' : (syscall_open (fd_exec (fd_init n0) calls).cur (some file)).2
          = (fd_exec (fd_init n0) calls).cur.next_fd := rfl
      omega
  · intro e he
    exact close_then_find h1 (fd_exec (fd_init n0) calls).cur.next_fd e he

theorem fd_unique_witness :
    (isInt32 2 ∧
      (2 : Int) + successful_opens
        [fd_call.sys_open (some 7), fd_call.sys_open (some 8), fd_call.sys_close 2,
          fd_call.sys_open none, fd_call.sys_open (some 9)] < 2 ^ 31) ∧
    (fd_exec (fd_init 2)
        [fd_call.sys_open (some 7), fd_call.sys_open (some 8), fd_call.sys_close 2,
          fd_call.sys_open none, fd_call.sys_open (some 9)]).cur
      = ⟨[⟨3, 8⟩, ⟨4, 9⟩], 5⟩ ∧
    ((fd_exec (fd_init 2)
        [fd_call.sys_open (some 7), fd_call.sys_open (some 8), fd_call.sys_close 2,
          fd_call.sys_open none, fd_call.sys_open (some 9)]).cur.file_list.map
      file_info.fd).Nodup :=
  ⟨by decide, by decide,
    (fd_unique 2
      [fd_call.sys_open (some 7), fd_call.sys_open (some 8), fd_call.sys_close 2,
        fd_call.sys_open none, fd_call.sys_open (some 9)] (by decide) (by decide)).1.1⟩

end PintOS
